import Mathlib

set_option maxHeartbeats 1000000

/-!
Shallow embedding of the segment model and escape encoder implemented in
`src/src/App.tsx` (the "coloured text generator" React component).

Modelling conventions:
* JS strings are modelled as `List Char`; JS `string | null` (or
  `ColorOption | null` projected to its `code` field) as `Option String`.
* JS truthiness on strings (`!s`, `s || t`) treats both `null`/`undefined`
  and the empty string as falsy; `jsFalsyStr` and `jsOr` reproduce this.
* The React component state relevant to the segment model is the pair
  `(inputText, segments)`; the globally selected style attributes are passed
  to the operations as explicit arguments, mirroring the closure captures of
  `applyFormattingToSelection`.
-/

/-- A styled run of text: the `TextSegment` interface of `App.tsx`. -/
structure TextSegment where
  text : List Char
  foreground : Option String
  background : Option String
  styles : List String
  deriving DecidableEq, Repr

/-- JS `a || b` where `a` comes from `selected*?.code` (string or undefined)
and `b : string | null`: the empty string is falsy and falls through. -/
def jsOr (a b : Option String) : Option String :=
  match a with
  | none => b
  | some c => if c = "" then b else some c

/-- JS `!x` for `x : string | null`: true for `null` and for `""`. -/
def jsFalsyStr (o : Option String) : Bool :=
  match o with
  | none => true
  | some c => c = ""

/-- The guard of `handleTextChange`'s wholesale-replace branch:
`segments.length === 0 || (segments.length === 1 && !segments[0].foreground
&& !segments[0].background && segments[0].styles.length === 0)`. -/
def isFreshDoc : List TextSegment → Bool
  | [] => true
  | [seg] => jsFalsyStr seg.foreground && jsFalsyStr seg.background &&
      seg.styles.length == 0
  | _ => false

/-- Model of `segments.reduce((sum, seg) => sum + seg.text.length, 0)`. -/
def docLen (segs : List TextSegment) : Nat :=
  segs.foldl (fun sum seg => sum + seg.text.length) 0

/-- The growth branch of `handleTextChange`: the copied array with the last
element replaced by `{...lastSegment, text: lastSegment.text + suffix}`.
(The empty-document case never reaches this branch: it is caught by the
wholesale-replace guard.) -/
def appendToLast : List TextSegment → List Char → List TextSegment
  | [], _ => []
  | [seg], suffix => [{ seg with text := seg.text ++ suffix }]
  | seg :: rest, suffix => seg :: appendToLast rest suffix

/-- The shrink branch of `handleTextChange`: walk segments with a `remaining`
budget, keeping whole segments while the budget covers them, truncating the
first segment the budget does not cover, and dropping the rest. -/
def truncateSegs : Nat → List TextSegment → List TextSegment
  | _, [] => []
  | remaining, seg :: rest =>
    if remaining = 0 then []
    else if seg.text.length ≤ remaining then
      seg :: truncateSegs (remaining - seg.text.length) rest
    else
      [{ seg with text := seg.text.take remaining }]

/-- Model of `handleTextChange` of `App.tsx`, restricted to its effect on `segments`
(`inputText` is simply set to `newText` by the caller, see `step`). -/
def handleTextChange (segs : List TextSegment) (newText : List Char) :
    List TextSegment :=
  if isFreshDoc segs then
    [⟨newText, none, none, []⟩]
  else
    let totalCurrentLength := docLen segs
    if totalCurrentLength < newText.length then
      appendToLast segs (newText.drop totalCurrentLength)
    else if newText.length < totalCurrentLength then
      truncateSegs newText.length segs
    else
      segs

/-- The body of the `else` branch of `applyFormattingToSelection` for one
segment overlapping the selection: the prefix before the selection, the
restyled overlap slice (dropped when empty), and the suffix after the
selection.  `cp` is `currentPos`.  JS `text.slice(a, b)` with non-negative
bounds is `(text.take b).drop a`; `Math.max(0, s - cp)` is `Nat` subtraction
`s - cp`. -/
def splitSegment (s e : Nat) (fg bg : Option String) (sty : List String)
    (cp : Nat) (seg : TextSegment) : List TextSegment :=
  let pre : List TextSegment :=
    if cp < s then [{ seg with text := seg.text.take (s - cp) }] else []
  let overlapText : List Char :=
    (seg.text.take (min seg.text.length (e - cp))).drop (s - cp)
  let mid : List TextSegment :=
    if overlapText.isEmpty then []
    else [⟨overlapText, jsOr fg seg.foreground, jsOr bg seg.background,
          if sty.length > 0 then sty else seg.styles⟩]
  let suf : List TextSegment :=
    if e < cp + seg.text.length then
      [{ seg with text := seg.text.drop (e - cp) }]
    else []
  pre ++ mid ++ suf

/-- The segment loop of `applyFormattingToSelection`, tracking `currentPos`. -/
def applyFmtGo (s e : Nat) (fg bg : Option String) (sty : List String) :
    Nat → List TextSegment → List TextSegment
  | _, [] => []
  | cp, seg :: rest =>
    if cp + seg.text.length ≤ s ∨ e ≤ cp then
      seg :: applyFmtGo s e fg bg sty (cp + seg.text.length) rest
    else
      splitSegment s e fg bg sty cp seg ++
        applyFmtGo s e fg bg sty (cp + seg.text.length) rest

/-- Model of `applyFormattingToSelection` of `App.tsx`: a no-op on a zero-width
selection (the `selectionStart === selectionEnd` guard; the null-selection
guard is modelled by the operation only being issued with a concrete range),
otherwise the segment walk starting at `currentPos = 0`. -/
def applyFormattingToSelection (segs : List TextSegment) (s e : Nat)
    (fg bg : Option String) (sty : List String) : List TextSegment :=
  if s = e then segs else applyFmtGo s e fg bg sty 0 segs

/-- Model of `toggleStyle` of `App.tsx`. -/
def toggleStyle (code : String) (prev : List String) : List String :=
  if prev.contains code then prev.filter (fun s => s ≠ code) else prev ++ [code]

/-- Model of `clearAll` of `App.tsx`, restricted to its effect on `segments`. -/
def clearAll (inputText : List Char) : List TextSegment :=
  [⟨inputText, none, none, []⟩]

/-- The whitespace class of JS `String.prototype.trim` (ECMA-262 WhiteSpace
and LineTerminator code points). -/
def jsIsWhitespace (c : Char) : Bool :=
  c ∈ ['\t', '\n', '\x0b', '\x0c', '\r', ' ',
       Char.ofNat 0xa0, Char.ofNat 0x1680,
       Char.ofNat 0x2000, Char.ofNat 0x2001, Char.ofNat 0x2002,
       Char.ofNat 0x2003, Char.ofNat 0x2004, Char.ofNat 0x2005,
       Char.ofNat 0x2006, Char.ofNat 0x2007, Char.ofNat 0x2008,
       Char.ofNat 0x2009, Char.ofNat 0x200a, Char.ofNat 0x2028,
       Char.ofNat 0x2029, Char.ofNat 0x202f, Char.ofNat 0x205f,
       Char.ofNat 0x3000, Char.ofNat 0xfeff]

/-- JS `!inputText.trim()`: true exactly when the text is empty or consists
of whitespace only. -/
def isBlank (l : List Char) : Bool :=
  l.all jsIsWhitespace

/-- The `if (segment.foreground) codes.push(segment.foreground)` pattern of
the first (segmented) encoder: a string truthiness check. -/
def optCode (o : Option String) : List String :=
  match o with
  | none => []
  | some c => if c = "" then [] else [c]

/-- The `codes` array built by the segmented `generateColoredText` for one
segment: styles pushed first (when present), then foreground, then
background. -/
def segmentCodes (seg : TextSegment) : List String :=
  (if seg.styles.length > 0 then seg.styles else []) ++
    optCode seg.foreground ++ optCode seg.background

/-- The span the segmented `generateColoredText` appends for one segment:
nothing for empty text (`if (!segment.text) continue`), the raw text when no
codes, otherwise the escape-wrapped text. -/
def encodeSegment (seg : TextSegment) : List Char :=
  if seg.text = [] then []
  else if segmentCodes seg = [] then seg.text
  else
    "\x1b[".toList ++ (String.intercalate ";" (segmentCodes seg)).toList ++
      "m".toList ++ seg.text ++ "\x1b[0m".toList

/-- Model of `generateColoredText` of the first (segmented) `App`:
`if (!inputText.trim() || segments.length === 0) return ''`, otherwise the
fence, each segment's span in order, and the closing fence. -/
def generateColoredText (inputText : List Char) (segs : List TextSegment) :
    List Char :=
  if isBlank inputText || segs.length == 0 then []
  else "```ansi\n".toList ++ (segs.map encodeSegment).flatten ++ "\n```".toList

/-- The `if (selectedForeground) codes.push(selectedForeground.code)` pattern
of the second (whole-text) encoder: a null-check on the `ColorOption` object,
so the code is pushed whenever a colour object is selected. -/
def optCodeObj (o : Option String) : List String :=
  match o with
  | none => []
  | some c => [c]

/-- Model of `generateColoredText` of the second (older, whole-text) `App`. -/
def generateColoredText2 (inputText : List Char) (sty : List String)
    (fg bg : Option String) : List Char :=
  if isBlank inputText then []
  else
    let codes : List String :=
      (if sty.length > 0 then sty else []) ++ optCodeObj fg ++ optCodeObj bg
    if codes.length == 0 then
      "```ansi\n".toList ++ inputText ++ "\n```".toList
    else
      "```ansi\n".toList ++ "\x1b[".toList ++
        (String.intercalate ";" codes).toList ++ "m".toList ++ inputText ++
        "\x1b[0m".toList ++ "\n```".toList

/-! ### The per-character view of a Document

A `Document` (list of segments) determines an annotated character sequence;
this is the view in which the selection-frame and attribute-merge claims are
stated. -/

/-- One character together with the style attributes of its segment. -/
structure AChar where
  char : Char
  foreground : Option String
  background : Option String
  styles : List String
  deriving DecidableEq, Repr

/-- Annotate every character of `t` with the given attributes. -/
def annot (fg bg : Option String) (sty : List String) (t : List Char) :
    List AChar :=
  t.map (fun c => ⟨c, fg, bg, sty⟩)

/-- The annotated characters of one segment. -/
def segChars (seg : TextSegment) : List AChar :=
  annot seg.foreground seg.background seg.styles seg.text

/-- The annotated characters of a whole Document, in order. -/
def docChars (segs : List TextSegment) : List AChar :=
  (segs.map segChars).flatten

/-- The attribute merge of `applyFormattingToSelection` applied to one
annotated character: `selectedForeground?.code || segment.foreground` etc. -/
def mergeAttrs (fg bg : Option String) (sty : List String) (ac : AChar) :
    AChar :=
  ⟨ac.char, jsOr fg ac.foreground, jsOr bg ac.background,
    if sty.length > 0 then sty else ac.styles⟩

/-- Restyle a character at absolute position `p` when it lies in `[s, e)`. -/
def restyleChar (s e : Nat) (fg bg : Option String) (sty : List String)
    (p : Nat) (ac : AChar) : AChar :=
  if s ≤ p ∧ p < e then mergeAttrs fg bg sty ac else ac

/-- Restyle an annotated character sequence whose first character sits at
absolute position `p`. -/
def restyleFrom (s e : Nat) (fg bg : Option String) (sty : List String) :
    Nat → List AChar → List AChar
  | _, [] => []
  | p, ac :: rest =>
    restyleChar s e fg bg sty p ac :: restyleFrom s e fg bg sty (p + 1) rest

/-! ### The component state and its operations -/

/-- The segment-model-relevant React state: the textarea value and the
segment list. -/
structure AppState where
  inputText : List Char
  segments : List TextSegment
  deriving DecidableEq, Repr

/-- One user-triggered operation on the segment model. `applyStyle` carries
the selection range and the globally selected attributes as an explicit
context. -/
inductive Op where
  | textChange (newText : List Char)
  | applyStyle (s e : Nat) (fg bg : Option String) (sty : List String)
  | clearOp
  deriving DecidableEq, Repr

/-- The effect of one operation on the state. -/
def step (st : AppState) : Op → AppState
  | .textChange newText => ⟨newText, handleTextChange st.segments newText⟩
  | .applyStyle s e fg bg sty =>
      ⟨st.inputText, applyFormattingToSelection st.segments s e fg bg sty⟩
  | .clearOp => ⟨st.inputText, clearAll st.inputText⟩

/-- Selections delivered by the DOM always satisfy
`selectionStart ≤ selectionEnd`; the other operations are unconstrained. -/
def ValidOp : Op → Prop
  | .applyStyle s e _ _ _ => s ≤ e
  | _ => True

instance : DecidablePred ValidOp := fun op =>
  match op with
  | .textChange _ => inferInstanceAs (Decidable True)
  | .applyStyle s e _ _ _ => inferInstanceAs (Decidable (s ≤ e))
  | .clearOp => inferInstanceAs (Decidable True)

/-- Run a sequence of operations. -/
def runOps (st : AppState) : List Op → AppState
  | [] => st
  | op :: rest => runOps (step st op) rest

/-- The initial React state: empty textarea, no segments. -/
def initState : AppState := ⟨[], []⟩

/-- A Document that is empty or a single segment with no style attributes at
all (the wording of the spec's wholesale-replace exception). -/
def FreshDoc (segs : List TextSegment) : Prop :=
  segs = [] ∨ ∃ seg, segs = [seg] ∧ seg.foreground = none ∧
    seg.background = none ∧ seg.styles = []

/-- Style attributes as they actually occur in the app: colour codes come
from the palettes and are never the empty string. -/
def WfSeg (seg : TextSegment) : Prop :=
  seg.foreground ≠ some "" ∧ seg.background ≠ some ""

instance : DecidablePred WfSeg := fun seg =>
  inferInstanceAs
    (Decidable (seg.foreground ≠ some "" ∧ seg.background ≠ some ""))

-- Sanity checks against the spec's concrete scenarios.
example :
    generateColoredText "hello".toList [⟨"hello".toList, none, none, []⟩] =
      "```ansi\nhello\n```".toList := by decide

example :
    applyFormattingToSelection [⟨"hello".toList, none, none, []⟩] 0 5
        (some "31") none [] =
      [⟨"hello".toList, some "31", none, []⟩] := by decide

example :
    generateColoredText "hello".toList
        [⟨"hello".toList, some "31", none, []⟩] =
      "```ansi\n\x1b[31mhello\x1b[0m\n```".toList := by decide

example :
    handleTextChange [⟨"hello".toList, some "31", none, []⟩]
        "hello there".toList =
      [⟨"hello there".toList, some "31", none, []⟩] := by decide

example :
    applyFormattingToSelection
        [⟨"hello".toList, some "31", none, ["1"]⟩,
         ⟨" ".toList, none, none, []⟩,
         ⟨"world".toList, none, some "45", []⟩] 3 8 none none ["4"] =
      [⟨"hel".toList, some "31", none, ["1"]⟩,
       ⟨"lo".toList, some "31", none, ["4"]⟩,
       ⟨" ".toList, none, none, ["4"]⟩,
       ⟨"wo".toList, none, some "45", ["4"]⟩,
       ⟨"rld".toList, none, some "45", []⟩] := by decide

example :
    handleTextChange
        [⟨"hello".toList, some "31", none, ["1"]⟩,
         ⟨" ".toList, none, none, []⟩,
         ⟨"world".toList, none, some "45", []⟩] "hello wor".toList =
      [⟨"hello".toList, some "31", none, ["1"]⟩,
       ⟨" ".toList, none, none, []⟩,
       ⟨"wor".toList, none, some "45", []⟩] := by decide

/-! ### Length bookkeeping -/

theorem docLen_shift (l : List TextSegment) (a : Nat) :
    l.foldl (fun sum seg => sum + seg.text.length) a = a + docLen l := by
  induction l generalizing a with
  | nil => simp [docLen]
  | cons x xs ih =>
    simp only [docLen, List.foldl_cons]
    rw [ih (a + x.text.length), ih (0 + x.text.length)]
    omega

theorem docLen_nil : docLen [] = 0 := rfl

theorem docLen_cons (seg : TextSegment) (rest : List TextSegment) :
    docLen (seg :: rest) = seg.text.length + docLen rest := by
  show (seg :: rest).foldl (fun sum seg => sum + seg.text.length) 0 =
    seg.text.length + docLen rest
  rw [List.foldl_cons, docLen_shift]
  omega

theorem docLen_append (l1 l2 : List TextSegment) :
    docLen (l1 ++ l2) = docLen l1 + docLen l2 := by
  induction l1 with
  | nil => simp [docLen]
  | cons x xs ih =>
    simp only [List.cons_append, docLen_cons, ih]
    omega

theorem docChars_cons (seg : TextSegment) (rest : List TextSegment) :
    docChars (seg :: rest) = segChars seg ++ docChars rest := by
  simp [docChars]

theorem docChars_append (l1 l2 : List TextSegment) :
    docChars (l1 ++ l2) = docChars l1 ++ docChars l2 := by
  simp [docChars]

theorem length_annot (fg bg : Option String) (sty : List String)
    (t : List Char) : (annot fg bg sty t).length = t.length := by
  simp [annot]

theorem length_segChars (seg : TextSegment) :
    (segChars seg).length = seg.text.length := by
  simp [segChars, length_annot]

theorem docLen_eq_length_docChars (segs : List TextSegment) :
    docLen segs = (docChars segs).length := by
  induction segs with
  | nil => rfl
  | cons seg rest ih =>
    rw [docChars_cons, docLen_cons, List.length_append, length_segChars, ih]

/-! ### Lemmas about restyling an annotated character sequence -/

theorem length_restyleFrom (s e : Nat) (fg bg : Option String)
    (sty : List String) (l : List AChar) (p : Nat) :
    (restyleFrom s e fg bg sty p l).length = l.length := by
  induction l generalizing p with
  | nil => rfl
  | cons a tl ih => simp [restyleFrom, ih]

theorem restyleFrom_append (s e : Nat) (fg bg : Option String)
    (sty : List String) (l1 l2 : List AChar) (p : Nat) :
    restyleFrom s e fg bg sty p (l1 ++ l2) =
      restyleFrom s e fg bg sty p l1 ++
        restyleFrom s e fg bg sty (p + l1.length) l2 := by
  induction l1 generalizing p with
  | nil => simp [restyleFrom]
  | cons a tl ih =>
    simp only [List.cons_append, restyleFrom, List.append_eq, List.length_cons]
    rw [ih, show p + 1 + tl.length = p + (tl.length + 1) from by omega]

theorem restyleFrom_getElem? (s e : Nat) (fg bg : Option String)
    (sty : List String) (l : List AChar) (p i : Nat) :
    (restyleFrom s e fg bg sty p l)[i]? =
      (l[i]?).map (restyleChar s e fg bg sty (p + i)) := by
  induction l generalizing p i with
  | nil => simp [restyleFrom]
  | cons a tl ih =>
    cases i with
    | zero => simp [restyleFrom]
    | succ j =>
      simp only [restyleFrom, List.getElem?_cons_succ]
      rw [ih, show p + 1 + j = p + (j + 1) from by omega]

theorem restyleFrom_outside (s e : Nat) (fg bg : Option String)
    (sty : List String) (l : List AChar) (p : Nat)
    (h : p + l.length ≤ s ∨ e ≤ p) :
    restyleFrom s e fg bg sty p l = l := by
  induction l generalizing p with
  | nil => rfl
  | cons a tl ih =>
    simp only [List.length_cons] at h
    simp only [restyleFrom, restyleChar]
    rw [if_neg (by omega), ih (p + 1) (by omega)]

theorem restyleFrom_inside (s e : Nat) (fg bg : Option String)
    (sty : List String) (l : List AChar) (p : Nat)
    (h1 : s ≤ p) (h2 : p + l.length ≤ e) :
    restyleFrom s e fg bg sty p l = l.map (mergeAttrs fg bg sty) := by
  induction l generalizing p with
  | nil => rfl
  | cons a tl ih =>
    simp only [List.length_cons] at h2
    simp only [restyleFrom, restyleChar, List.map_cons]
    rw [if_pos (by omega), ih (p + 1) (by omega) (by omega)]

theorem annot_append (fg bg : Option String) (sty : List String)
    (t1 t2 : List Char) :
    annot fg bg sty (t1 ++ t2) = annot fg bg sty t1 ++ annot fg bg sty t2 := by
  simp [annot]

theorem map_mergeAttrs_annot (fg bg F B : Option String)
    (sty St : List String) (t : List Char) :
    (annot F B St t).map (mergeAttrs fg bg sty) =
      annot (jsOr fg F) (jsOr bg B)
        (if sty.length > 0 then sty else St) t := by
  simp only [annot, List.map_map]
  rfl

theorem docChars_singleton (seg : TextSegment) :
    docChars [seg] = segChars seg := by
  simp [docChars]

theorem take_decomp (t : List Char) (a b : Nat) (hab : a ≤ b) :
    t.take a ++ (t.take b).drop a ++ t.drop b = t := by
  have h1 : (t.take b).take a = t.take a := by
    rw [List.take_take, min_eq_left hab]
  rw [← h1, List.take_append_drop, List.take_append_drop]

/-- The character-level effect of `splitSegment`: exactly the characters of
the segment inside `[s, e)` get the merged attributes, all others keep their
own. -/
theorem splitSegment_chars (s e : Nat) (fg bg : Option String)
    (sty : List String) (cp : Nat) (seg : TextSegment) (hse : s ≤ e)
    (h1 : s < cp + seg.text.length) (h2 : cp < e) :
    docChars (splitSegment s e fg bg sty cp seg) =
      restyleFrom s e fg bg sty cp (segChars seg) := by
  rcases seg with ⟨t, F, B, St⟩
  replace h1 : s < cp + t.length := h1
  have ha : s - cp ≤ t.length := by omega
  have hab : s - cp ≤ min t.length (e - cp) := by omega
  have hdecomp := take_decomp t (s - cp) (min t.length (e - cp)) hab
  rw [show segChars ⟨t, F, B, St⟩ = annot F B St t from rfl]
  conv_rhs => rw [← hdecomp]
  rw [annot_append, annot_append, restyleFrom_append, restyleFrom_append]
  simp only [length_annot, List.length_append, List.length_take,
    List.length_drop]
  rw [min_eq_left ha, min_eq_left (min_le_left t.length (e - cp))]
  simp only [splitSegment]
  have hb1 : docChars (if cp < s then [⟨t.take (s - cp), F, B, St⟩] else []) =
      restyleFrom s e fg bg sty cp (annot F B St (t.take (s - cp))) := by
    by_cases hcs : cp < s
    · rw [if_pos hcs, docChars_singleton,
        restyleFrom_outside _ _ _ _ _ _ _
          (Or.inl (by rw [length_annot, List.length_take]; omega))]
      rfl
    · rw [if_neg hcs, show s - cp = 0 from by omega]
      simp [docChars, annot, restyleFrom]
  have hb2 : docChars
        (if ((t.take (min t.length (e - cp))).drop (s - cp)).isEmpty then []
         else [⟨(t.take (min t.length (e - cp))).drop (s - cp),
               jsOr fg F, jsOr bg B,
               if sty.length > 0 then sty else St⟩]) =
      restyleFrom s e fg bg sty (cp + (s - cp))
        (annot F B St ((t.take (min t.length (e - cp))).drop (s - cp))) := by
    rw [restyleFrom_inside _ _ _ _ _ _ _ (by omega)
        (by rw [length_annot, List.length_drop, List.length_take]; omega),
      map_mergeAttrs_annot]
    by_cases hov : ((t.take (min t.length (e - cp))).drop (s - cp)).isEmpty
    · rw [if_pos hov, List.isEmpty_iff.mp hov]
      simp [docChars, annot]
    · rw [if_neg hov, docChars_singleton]
      rfl
  have hb3 : docChars
        (if e < cp + t.length then [⟨t.drop (e - cp), F, B, St⟩] else []) =
      restyleFrom s e fg bg sty
        (cp + (s - cp) + (min t.length (e - cp) - (s - cp)))
        (annot F B St (t.drop (min t.length (e - cp)))) := by
    by_cases hsf : e < cp + t.length
    · have hm : min t.length (e - cp) = e - cp := by omega
      rw [if_pos hsf, hm, docChars_singleton,
        restyleFrom_outside _ _ _ _ _ _ _ (Or.inr (by omega))]
      rfl
    · have hm : min t.length (e - cp) = t.length := by omega
      rw [if_neg hsf, hm]
      simp [docChars, annot, restyleFrom, List.drop_length]
  rw [docChars_append, docChars_append, hb1, hb2, hb3, Nat.add_assoc]

/-- The character-level description of the whole segment walk. -/
theorem applyFmtGo_docChars (s e : Nat) (fg bg : Option String)
    (sty : List String) (hse : s ≤ e) :
    ∀ (segs : List TextSegment) (cp : Nat),
    docChars (applyFmtGo s e fg bg sty cp segs) =
      restyleFrom s e fg bg sty cp (docChars segs) := by
  intro segs
  induction segs with
  | nil => intro cp; rfl
  | cons seg rest ih =>
    intro cp
    rw [docChars_cons, restyleFrom_append, length_segChars]
    by_cases hout : cp + seg.text.length ≤ s ∨ e ≤ cp
    · simp only [applyFmtGo, if_pos hout]
      rw [docChars_cons, ih,
        restyleFrom_outside _ _ _ _ _ (segChars seg) cp
          (by rw [length_segChars]; exact hout)]
    · simp only [applyFmtGo, if_neg hout]
      push_neg at hout
      rw [docChars_append, ih,
        splitSegment_chars s e fg bg sty cp seg hse hout.1 hout.2]

theorem docLen_applyFmtGo (s e : Nat) (fg bg : Option String)
    (sty : List String) (hse : s ≤ e) (segs : List TextSegment) (cp : Nat) :
    docLen (applyFmtGo s e fg bg sty cp segs) = docLen segs := by
  rw [docLen_eq_length_docChars, docLen_eq_length_docChars,
    applyFmtGo_docChars s e fg bg sty hse segs cp, length_restyleFrom]

theorem applyFormatting_docChars (segs : List TextSegment) (s e : Nat)
    (fg bg : Option String) (sty : List String) (hse : s < e) :
    docChars (applyFormattingToSelection segs s e fg bg sty) =
      restyleFrom s e fg bg sty 0 (docChars segs) := by
  unfold applyFormattingToSelection
  rw [if_neg (by omega), applyFmtGo_docChars s e fg bg sty (by omega) segs 0]

/-! ### Idempotence of the formatting walk

`applyFmtGo` produces a Document whose segments are *aligned* to the
selection: each is entirely outside `[s, e)`, or entirely inside with
already-merged attributes.  On an aligned Document the walk is the
identity. -/

/-- Attributes on which re-applying the merge is the identity. -/
def mergedFixed (fg bg : Option String) (sty : List String)
    (seg : TextSegment) : Prop :=
  jsOr fg seg.foreground = seg.foreground ∧
  jsOr bg seg.background = seg.background ∧
  (if sty.length > 0 then sty else seg.styles) = seg.styles

/-- One segment starting at `cp` is aligned to the selection `[s, e)`. -/
def SegOk (s e : Nat) (fg bg : Option String) (sty : List String)
    (cp : Nat) (seg : TextSegment) : Prop :=
  (cp + seg.text.length ≤ s ∨ e ≤ cp) ∨
  (s ≤ cp ∧ cp + seg.text.length ≤ e ∧ seg.text ≠ [] ∧
    mergedFixed fg bg sty seg)

/-- A segment list starting at `cp` is aligned to the selection. -/
def Aligned (s e : Nat) (fg bg : Option String) (sty : List String) :
    Nat → List TextSegment → Prop
  | _, [] => True
  | cp, seg :: rest =>
    SegOk s e fg bg sty cp seg ∧
      Aligned s e fg bg sty (cp + seg.text.length) rest

theorem Aligned_append (s e : Nat) (fg bg : Option String)
    (sty : List String) :
    ∀ (l1 l2 : List TextSegment) (cp : Nat),
    Aligned s e fg bg sty cp (l1 ++ l2) ↔
      (Aligned s e fg bg sty cp l1 ∧
        Aligned s e fg bg sty (cp + docLen l1) l2) := by
  intro l1
  induction l1 with
  | nil =>
    intro l2 cp
    simp [Aligned, docLen]
  | cons x xs ih =>
    intro l2 cp
    simp only [List.cons_append, List.append_eq, Aligned, ih, docLen_cons]
    rw [show cp + (x.text.length + docLen xs) = cp + x.text.length + docLen xs
      from by omega]
    tauto

theorem aligned_singleton (s e : Nat) (fg bg : Option String)
    (sty : List String) (cp : Nat) (seg : TextSegment)
    (h : SegOk s e fg bg sty cp seg) :
    Aligned s e fg bg sty cp [seg] :=
  ⟨h, trivial⟩

theorem jsOr_idem (a b : Option String) : jsOr a (jsOr a b) = jsOr a b := by
  cases a with
  | none => rfl
  | some c => by_cases hc : c = "" <;> simp [jsOr, hc]

theorem mergedFixed_merge (fg bg F B : Option String) (sty St : List String)
    (t : List Char) :
    mergedFixed fg bg sty
      ⟨t, jsOr fg F, jsOr bg B, if sty.length > 0 then sty else St⟩ := by
  refine ⟨jsOr_idem fg F, jsOr_idem bg B, ?_⟩
  by_cases h : sty.length > 0 <;> simp [h]

theorem docLen_splitSegment (s e : Nat) (fg bg : Option String)
    (sty : List String) (cp : Nat) (seg : TextSegment) (hse : s ≤ e)
    (h1 : s < cp + seg.text.length) (h2 : cp < e) :
    docLen (splitSegment s e fg bg sty cp seg) = seg.text.length := by
  rw [docLen_eq_length_docChars,
    splitSegment_chars s e fg bg sty cp seg hse h1 h2, length_restyleFrom,
    length_segChars]

theorem aligned_splitSegment (s e : Nat) (fg bg : Option String)
    (sty : List String) (cp : Nat) (seg : TextSegment) (hse : s ≤ e)
    (h1 : s < cp + seg.text.length) (h2 : cp < e) :
    Aligned s e fg bg sty cp (splitSegment s e fg bg sty cp seg) := by
  rcases seg with ⟨t, F, B, St⟩
  replace h1 : s < cp + t.length := h1
  simp only [splitSegment]
  rw [Aligned_append, Aligned_append]
  have hpre : docLen
      (if cp < s then [(⟨t.take (s - cp), F, B, St⟩ : TextSegment)] else []) =
      s - cp := by
    by_cases hcs : cp < s
    · rw [if_pos hcs]
      simp only [docLen_cons, docLen_nil, List.length_take]
      omega
    · rw [if_neg hcs]
      simp only [docLen_nil]
      omega
  have hmid : docLen
      (if ((t.take (min t.length (e - cp))).drop (s - cp)).isEmpty then []
       else [(⟨(t.take (min t.length (e - cp))).drop (s - cp),
             jsOr fg F, jsOr bg B,
             if sty.length > 0 then sty else St⟩ : TextSegment)]) =
      min t.length (e - cp) - (s - cp) := by
    by_cases hov : ((t.take (min t.length (e - cp))).drop (s - cp)).isEmpty
    · rw [if_pos hov]
      have hl := congrArg List.length (List.isEmpty_iff.mp hov)
      simp only [List.length_drop, List.length_take, List.length_nil] at hl
      simp only [docLen_nil]
      omega
    · rw [if_neg hov]
      simp only [docLen_cons, docLen_nil, List.length_drop, List.length_take]
      omega
  refine ⟨⟨?_, ?_⟩, ?_⟩
  · by_cases hcs : cp < s
    · rw [if_pos hcs]
      refine aligned_singleton _ _ _ _ _ _ _ (Or.inl (Or.inl ?_))
      simp [List.length_take]
      omega
    · rw [if_neg hcs]
      trivial
  · rw [hpre]
    by_cases hov : ((t.take (min t.length (e - cp))).drop (s - cp)).isEmpty
    · rw [if_pos hov]
      trivial
    · rw [if_neg hov]
      refine aligned_singleton _ _ _ _ _ _ _
        (Or.inr ⟨by omega, ?_, ?_, mergedFixed_merge fg bg F B sty St _⟩)
      · simp [List.length_drop, List.length_take]
        omega
      · intro h0
        replace h0 : (t.take (min t.length (e - cp))).drop (s - cp) = [] := h0
        rw [h0] at hov
        exact hov rfl
  · rw [docLen_append, hpre, hmid]
    by_cases hsf : e < cp + t.length
    · rw [if_pos hsf]
      exact aligned_singleton _ _ _ _ _ _ _ (Or.inl (Or.inr (by omega)))
    · rw [if_neg hsf]
      trivial

theorem applyFmtGo_aligned (s e : Nat) (fg bg : Option String)
    (sty : List String) (hse : s ≤ e) :
    ∀ (segs : List TextSegment) (cp : Nat),
    Aligned s e fg bg sty cp (applyFmtGo s e fg bg sty cp segs) := by
  intro segs
  induction segs with
  | nil => intro cp; trivial
  | cons seg rest ih =>
    intro cp
    by_cases hout : cp + seg.text.length ≤ s ∨ e ≤ cp
    · simp only [applyFmtGo, if_pos hout]
      exact ⟨Or.inl hout, ih (cp + seg.text.length)⟩
    · simp only [applyFmtGo, if_neg hout]
      push_neg at hout
      rw [Aligned_append,
        docLen_splitSegment s e fg bg sty cp seg hse hout.1 hout.2]
      exact ⟨aligned_splitSegment s e fg bg sty cp seg hse hout.1 hout.2,
        ih (cp + seg.text.length)⟩

theorem applyFmtGo_of_aligned (s e : Nat) (fg bg : Option String)
    (sty : List String) :
    ∀ (segs : List TextSegment) (cp : Nat),
    Aligned s e fg bg sty cp segs →
      applyFmtGo s e fg bg sty cp segs = segs := by
  intro segs
  induction segs with
  | nil => intro cp _; rfl
  | cons seg rest ih =>
    intro cp h
    obtain ⟨hok, hrest⟩ := h
    rcases hok with hout | ⟨hs, he, hne, hfix⟩
    · simp only [applyFmtGo, if_pos hout]
      rw [ih (cp + seg.text.length) hrest]
    · rcases seg with ⟨t, F, B, St⟩
      replace hs : s ≤ cp := hs
      replace he : cp + t.length ≤ e := he
      replace hne : t ≠ [] := hne
      obtain ⟨hf, hb, hst⟩ := hfix
      replace hf : jsOr fg F = F := hf
      replace hb : jsOr bg B = B := hb
      replace hst : (if sty.length > 0 then sty else St) = St := hst
      have hlen : t.length ≠ 0 := fun h0 => hne (List.length_eq_zero.mp h0)
      simp only [applyFmtGo]
      rw [if_neg (show ¬((cp + t.length ≤ s) ∨ e ≤ cp) from by omega)]
      rw [ih _ hrest]
      simp only [splitSegment]
      rw [if_neg (show ¬ cp < s from by omega),
        if_neg (show ¬ e < cp + t.length from by omega)]
      have hov : (t.take (min t.length (e - cp))).drop (s - cp) = t := by
        rw [show s - cp = 0 from by omega, List.drop_zero,
          min_eq_left (by omega), List.take_length]
      rw [hov]
      have hemp : t.isEmpty = false := by
        cases t with
        | nil => exact absurd rfl hne
        | cons a l => rfl
      rw [if_neg (by simp [hemp])]
      simp [hf, hb, hst]

/-! ### Reconciliation lemmas -/

/-- Unfolding equation for `handleTextChange` with the `let` inlined. -/
theorem handleTextChange_eq (segs : List TextSegment) (newText : List Char) :
    handleTextChange segs newText =
      if isFreshDoc segs then [⟨newText, none, none, []⟩]
      else if docLen segs < newText.length then
        appendToLast segs (newText.drop (docLen segs))
      else if newText.length < docLen segs then
        truncateSegs newText.length segs
      else segs := rfl

theorem docLen_appendToLast :
    ∀ (segs : List TextSegment) (suffix : List Char), segs ≠ [] →
    docLen (appendToLast segs suffix) = docLen segs + suffix.length := by
  intro segs
  induction segs with
  | nil => intro suffix h; exact absurd rfl h
  | cons seg rest ih =>
    intro suffix _
    cases rest with
    | nil =>
      simp only [appendToLast, docLen_cons, docLen_nil, List.length_append]
      omega
    | cons seg2 rest2 =>
      rw [show appendToLast (seg :: seg2 :: rest2) suffix =
          seg :: appendToLast (seg2 :: rest2) suffix from rfl,
        docLen_cons, docLen_cons, ih suffix (by simp)]
      omega

theorem docLen_truncateSegs :
    ∀ (r : Nat) (segs : List TextSegment),
    docLen (truncateSegs r segs) = min r (docLen segs) := by
  intro r segs
  induction segs generalizing r with
  | nil =>
    simp only [truncateSegs, docLen_nil]
    omega
  | cons seg rest ih =>
    simp only [truncateSegs]
    by_cases h0 : r = 0
    · rw [if_pos h0, h0]
      simp only [docLen_nil]
      omega
    · rw [if_neg h0]
      by_cases hle : seg.text.length ≤ r
      · rw [if_pos hle, docLen_cons, docLen_cons, ih]
        omega
      · rw [if_neg hle]
        simp only [docLen_cons, docLen_nil, List.length_take]
        omega

theorem docLen_handleTextChange (segs : List TextSegment)
    (newText : List Char) :
    docLen (handleTextChange segs newText) = newText.length := by
  rw [handleTextChange_eq]
  by_cases hf : isFreshDoc segs = true
  · rw [if_pos hf, docLen_cons, docLen_nil]
    show newText.length + 0 = newText.length
    omega
  · rw [if_neg hf]
    have hne : segs ≠ [] := by
      intro h0
      subst h0
      exact hf rfl
    by_cases hg : docLen segs < newText.length
    · rw [if_pos hg, docLen_appendToLast segs _ hne, List.length_drop]
      omega
    · rw [if_neg hg]
      by_cases hs : newText.length < docLen segs
      · rw [if_pos hs, docLen_truncateSegs]
        omega
      · rw [if_neg hs]
        omega

theorem docLen_applyFormatting (segs : List TextSegment) (s e : Nat)
    (fg bg : Option String) (sty : List String) (hse : s ≤ e) :
    docLen (applyFormattingToSelection segs s e fg bg sty) = docLen segs := by
  unfold applyFormattingToSelection
  by_cases h : s = e
  · rw [if_pos h]
  · rw [if_neg h, docLen_applyFmtGo s e fg bg sty hse segs 0]

theorem step_preserves_length (st : AppState) (op : Op) (hop : ValidOp op)
    (hinv : docLen st.segments = st.inputText.length) :
    docLen (step st op).segments = (step st op).inputText.length := by
  cases op with
  | textChange newText => exact docLen_handleTextChange st.segments newText
  | applyStyle s e fg bg sty =>
    calc docLen (step st (Op.applyStyle s e fg bg sty)).segments
        = docLen (applyFormattingToSelection st.segments s e fg bg sty) := rfl
      _ = docLen st.segments := docLen_applyFormatting st.segments s e fg bg sty hop
      _ = st.inputText.length := hinv
  | clearOp =>
    show docLen (clearAll st.inputText) = st.inputText.length
    simp only [clearAll, docLen_cons, docLen_nil]
    omega

theorem runOps_preserves_length :
    ∀ (ops : List Op) (st : AppState), (∀ op ∈ ops, ValidOp op) →
    docLen st.segments = st.inputText.length →
    docLen (runOps st ops).segments = (runOps st ops).inputText.length := by
  intro ops
  induction ops with
  | nil => intro st _ hinv; exact hinv
  | cons op rest ih =>
    intro st hops hinv
    exact ih (step st op) (fun o ho => hops o (List.mem_cons_of_mem op ho))
      (step_preserves_length st op (hops op (List.mem_cons_self op rest)) hinv)

/-! ### The wholesale-replace guard in the spec's vocabulary -/

theorem isFreshDoc_iff (segs : List TextSegment)
    (hwf : ∀ seg ∈ segs, WfSeg seg) :
    isFreshDoc segs = true ↔ FreshDoc segs := by
  cases segs with
  | nil => simp [isFreshDoc, FreshDoc]
  | cons seg rest =>
    cases rest with
    | cons seg2 rest2 =>
      constructor
      · intro h
        exact Bool.noConfusion h
      · rintro (h | ⟨x, hx, -, -, -⟩)
        · simp at h
        · simp at hx
    | nil =>
      obtain ⟨hwfg, hwbg⟩ := hwf seg (by simp)
      constructor
      · intro h
        have h' := h
        simp only [isFreshDoc, Bool.and_eq_true, beq_iff_eq] at h'
        obtain ⟨⟨h1, h2⟩, h3⟩ := h'
        refine Or.inr ⟨seg, rfl, ?_, ?_, List.length_eq_zero.mp h3⟩
        · cases hfg : seg.foreground with
          | none => rfl
          | some c =>
            exfalso
            rw [hfg] at h1
            have hc : c = "" := by simpa [jsFalsyStr] using h1
            exact hwfg (by rw [hfg, hc])
        · cases hbg : seg.background with
          | none => rfl
          | some c =>
            exfalso
            rw [hbg] at h2
            have hc : c = "" := by simpa [jsFalsyStr] using h2
            exact hwbg (by rw [hbg, hc])
      · rintro (h | ⟨x, hx, hf, hb, hs⟩)
        · simp at h
        · have hx' : seg = x := by injection hx
          subst hx'
          simp [isFreshDoc, jsFalsyStr, hf, hb, hs]

theorem appendToLast_concat :
    ∀ (init : List TextSegment) (last : TextSegment) (suffix : List Char),
    appendToLast (init ++ [last]) suffix =
      init ++ [{ last with text := last.text ++ suffix }] := by
  intro init
  induction init with
  | nil => intro last suffix; rfl
  | cons x xs ih =>
    intro last suffix
    cases xs with
    | nil => rfl
    | cons y ys => exact congrArg (x :: ·) (ih last suffix)

/-! ### No operation introduces an empty segment (for non-empty full text) -/

theorem applyFmtGo_no_empty (s e : Nat) (fg bg : Option String)
    (sty : List String) :
    ∀ (segs : List TextSegment) (cp : Nat),
    (∀ seg ∈ segs, seg.text ≠ []) →
    ∀ seg' ∈ applyFmtGo s e fg bg sty cp segs, seg'.text ≠ [] := by
  intro segs
  induction segs with
  | nil =>
    intro cp _ seg' h'
    exact absurd h' (List.not_mem_nil seg')
  | cons seg rest ih =>
    intro cp hne seg' h'
    simp only [applyFmtGo] at h'
    by_cases hout : cp + seg.text.length ≤ s ∨ e ≤ cp
    · rw [if_pos hout] at h'
      rcases List.mem_cons.mp h' with rfl | hm
      · exact hne seg' (by simp)
      · exact ih (cp + seg.text.length) (fun x hx => hne x (by simp [hx]))
          seg' hm
    · rw [if_neg hout] at h'
      push_neg at hout
      have ht : seg.text ≠ [] := hne seg (by simp)
      have hlen : seg.text.length ≠ 0 :=
        fun hz => ht (List.length_eq_zero.mp hz)
      rcases List.mem_append.mp h' with hm | hm
      · simp only [splitSegment] at hm
        rcases List.mem_append.mp hm with hm2 | hm2
        · rcases List.mem_append.mp hm2 with hm3 | hm3
          · by_cases hcs : cp < s
            · rw [if_pos hcs] at hm3
              rcases List.mem_singleton.mp hm3 with rfl
              intro h0
              replace h0 : seg.text.take (s - cp) = [] := h0
              have hl := congrArg List.length h0
              simp only [List.length_take, List.length_nil] at hl
              omega
            · rw [if_neg hcs] at hm3
              simp at hm3
          · by_cases hov :
              ((seg.text.take (min seg.text.length (e - cp))).drop
                (s - cp)).isEmpty
            · rw [if_pos hov] at hm3
              simp at hm3
            · rw [if_neg hov] at hm3
              rcases List.mem_singleton.mp hm3 with rfl
              intro h0
              replace h0 :
                  (seg.text.take (min seg.text.length (e - cp))).drop
                    (s - cp) = [] := h0
              rw [h0] at hov
              exact hov rfl
        · by_cases hsf : e < cp + seg.text.length
          · rw [if_pos hsf] at hm2
            rcases List.mem_singleton.mp hm2 with rfl
            intro h0
            replace h0 : seg.text.drop (e - cp) = [] := h0
            have hl := congrArg List.length h0
            simp only [List.length_drop, List.length_nil] at hl
            omega
          · rw [if_neg hsf] at hm2
            simp at hm2
      · exact ih (cp + seg.text.length) (fun x hx => hne x (by simp [hx]))
          seg' hm

theorem appendToLast_no_empty :
    ∀ (segs : List TextSegment) (suffix : List Char),
    (∀ seg ∈ segs, seg.text ≠ []) →
    ∀ seg' ∈ appendToLast segs suffix, seg'.text ≠ [] := by
  intro segs
  induction segs with
  | nil =>
    intro suffix _ seg' h'
    exact absurd h' (List.not_mem_nil seg')
  | cons seg rest ih =>
    intro suffix hne seg' h'
    cases rest with
    | nil =>
      replace h' : seg' ∈ [{ seg with text := seg.text ++ suffix }] := h'
      rcases List.mem_singleton.mp h' with rfl
      intro h0
      replace h0 : seg.text ++ suffix = [] := h0
      have := hne seg (by simp)
      simp only [List.append_eq_nil] at h0
      exact this h0.1
    | cons seg2 rest2 =>
      replace h' : seg' ∈ seg :: appendToLast (seg2 :: rest2) suffix := h'
      rcases List.mem_cons.mp h' with rfl | hm
      · exact hne seg' (by simp)
      · exact ih suffix (fun x hx => hne x (by simp [hx])) seg' hm

theorem truncateSegs_no_empty :
    ∀ (r : Nat) (segs : List TextSegment),
    (∀ seg ∈ segs, seg.text ≠ []) →
    ∀ seg' ∈ truncateSegs r segs, seg'.text ≠ [] := by
  intro r segs
  induction segs generalizing r with
  | nil =>
    intro _ seg' h'
    exact absurd h' (List.not_mem_nil seg')
  | cons seg rest ih =>
    intro hne seg' h'
    simp only [truncateSegs] at h'
    by_cases h0 : r = 0
    · rw [if_pos h0] at h'
      simp at h'
    · rw [if_neg h0] at h'
      by_cases hle : seg.text.length ≤ r
      · rw [if_pos hle] at h'
        rcases List.mem_cons.mp h' with rfl | hm
        · exact hne seg' (by simp)
        · exact ih (r - seg.text.length) (fun x hx => hne x (by simp [hx]))
            seg' hm
      · rw [if_neg hle] at h'
        rcases List.mem_singleton.mp h' with rfl
        intro hz
        replace hz : seg.text.take r = [] := hz
        have hl := congrArg List.length hz
        simp only [List.length_take, List.length_nil] at hl
        omega

theorem handleTextChange_no_empty (segs : List TextSegment)
    (newText : List Char) (hne : ∀ seg ∈ segs, seg.text ≠ [])
    (hnew : newText ≠ []) :
    ∀ seg' ∈ handleTextChange segs newText, seg'.text ≠ [] := by
  intro seg' h'
  rw [handleTextChange_eq] at h'
  by_cases hf : isFreshDoc segs = true
  · rw [if_pos hf] at h'
    rcases List.mem_singleton.mp h' with rfl
    exact hnew
  · rw [if_neg hf] at h'
    by_cases hg : docLen segs < newText.length
    · rw [if_pos hg] at h'
      exact appendToLast_no_empty segs _ hne seg' h'
    · rw [if_neg hg] at h'
      by_cases hs : newText.length < docLen segs
      · rw [if_pos hs] at h'
        exact truncateSegs_no_empty newText.length segs hne seg' h'
      · rw [if_neg hs] at h'
        exact hne seg' h'

/-! ### Claim theorems -/

/-- Claim C1 (length conservation, spec I1/P1): for every sequence of
operations (text-change reconciliation, style application to a selection with
`selectionStart ≤ selectionEnd` as the DOM guarantees, clear-all) run from the
initial state, the sum of the segment text lengths equals the length of the
current full input text when the operation completes. -/
theorem claim_length_conservation (ops : List Op)
    (hops : ∀ op ∈ ops, ValidOp op) :
    docLen (runOps initState ops).segments =
      (runOps initState ops).inputText.length :=
  runOps_preserves_length ops initState hops rfl

/-- Witness for C1 at a concrete operation sequence. -/
theorem claim_length_conservation_witness :
    (∀ op ∈ ([Op.textChange "hello".toList,
              Op.applyStyle 0 5 (some "31") none [],
              Op.textChange "hello there".toList,
              Op.clearOp] : List Op), ValidOp op) ∧
    docLen (runOps initState
        [Op.textChange "hello".toList,
         Op.applyStyle 0 5 (some "31") none [],
         Op.textChange "hello there".toList,
         Op.clearOp]).segments =
      (runOps initState
        [Op.textChange "hello".toList,
         Op.applyStyle 0 5 (some "31") none [],
         Op.textChange "hello there".toList,
         Op.clearOp]).inputText.length :=
  ⟨by decide, claim_length_conservation _ (by decide)⟩

/-- Claim C2 (frame, spec I4/P2): applying a style to a valid selection
`[s, e)` leaves every character at a position below `s` or at/after `e`
byte-identical with identical foreground, background and style flags (the
whole annotated character is unchanged). -/
theorem claim_frame_outside_selection (segs : List TextSegment)
    (s e p : Nat) (fg bg : Option String) (sty : List String)
    (hse : s < e) (he : e ≤ docLen segs) (hp : p < s ∨ e ≤ p) :
    (docChars (applyFormattingToSelection segs s e fg bg sty))[p]? =
      (docChars segs)[p]? := by
  rw [applyFormatting_docChars segs s e fg bg sty hse, restyleFrom_getElem?]
  cases h : (docChars segs)[p]? with
  | none => rfl
  | some ac =>
    simp only [Option.map_some']
    unfold restyleChar
    rw [if_neg (by omega)]

/-- Witness for C2. -/
theorem claim_frame_outside_selection_witness :
    (docChars (applyFormattingToSelection
        [⟨"hello".toList, none, none, []⟩] 1 3 (some "31") none []))[0]? =
      (docChars [⟨"hello".toList, none, none, []⟩])[0]? :=
  claim_frame_outside_selection _ 1 3 0 _ _ _ (by omega) (by decide)
    (Or.inl (by omega))

/-- Claim C3 (per-attribute merge, spec P5): inside the selection the merge is
per-attribute: char preserved; an unsupplied foreground keeps the segment's
prior foreground, likewise background; a supplied (non-empty) colour code
overrides. -/
theorem claim_attribute_merge (segs : List TextSegment) (s e p : Nat)
    (fg bg : Option String) (sty : List String) (hse : s ≤ e)
    (hsp : s ≤ p) (hpe : p < e) (ac : AChar)
    (hac : (docChars segs)[p]? = some ac) :
    ∃ ac', (docChars (applyFormattingToSelection segs s e fg bg sty))[p]? =
        some ac' ∧
      ac'.char = ac.char ∧
      (fg = none → ac'.foreground = ac.foreground) ∧
      (bg = none → ac'.background = ac.background) ∧
      (∀ c, fg = some c → c ≠ "" → ac'.foreground = some c) ∧
      (∀ c, bg = some c → c ≠ "" → ac'.background = some c) := by
  refine ⟨mergeAttrs fg bg sty ac, ?_, rfl, ?_, ?_, ?_, ?_⟩
  · rw [applyFormatting_docChars segs s e fg bg sty (by omega),
      restyleFrom_getElem?, hac]
    simp only [Option.map_some']
    unfold restyleChar
    rw [if_pos (by omega)]
  · intro h
    subst h
    rfl
  · intro h
    subst h
    rfl
  · intro c hc hcne
    subst hc
    show jsOr (some c) ac.foreground = some c
    simp only [jsOr]
    rw [if_neg hcne]
  · intro c hc hcne
    subst hc
    show jsOr (some c) ac.background = some c
    simp only [jsOr]
    rw [if_neg hcne]

/-- Witness for C3 at the spec's P5 instance: a segment with
`foreground = "31"` restyled with only `background = "45"` keeps the red
foreground and gains the background. -/
theorem claim_attribute_merge_witness :
    ∃ ac', (docChars (applyFormattingToSelection
          [⟨"hello".toList, some "31", none, []⟩] 0 5 none (some "45")
          []))[2]? = some ac' ∧
      ac'.char = (⟨'l', some "31", none, []⟩ : AChar).char ∧
      ((none : Option String) = none →
        ac'.foreground = (⟨'l', some "31", none, []⟩ : AChar).foreground) ∧
      ((some "45" : Option String) = none →
        ac'.background = (⟨'l', some "31", none, []⟩ : AChar).background) ∧
      (∀ c, (none : Option String) = some c → c ≠ "" →
        ac'.foreground = some c) ∧
      (∀ c, (some "45" : Option String) = some c → c ≠ "" →
        ac'.background = some c) :=
  claim_attribute_merge _ 0 5 2 none (some "45") [] (by omega) (by omega)
    (by omega) _ (by decide)

/-- Claim C7 (idempotence, spec P3): applying the same style change to the
same valid non-zero-width selection twice yields the same Document as
applying it once. -/
theorem claim_idempotent (segs : List TextSegment) (s e : Nat)
    (fg bg : Option String) (sty : List String) (hse : s < e)
    (he : e ≤ docLen segs) :
    applyFormattingToSelection
        (applyFormattingToSelection segs s e fg bg sty) s e fg bg sty =
      applyFormattingToSelection segs s e fg bg sty := by
  unfold applyFormattingToSelection
  rw [if_neg (show ¬ s = e from by omega),
    if_neg (show ¬ s = e from by omega)]
  exact applyFmtGo_of_aligned s e fg bg sty _ 0
    (applyFmtGo_aligned s e fg bg sty (by omega) segs 0)

/-- Witness for C7. -/
theorem claim_idempotent_witness :
    applyFormattingToSelection
        (applyFormattingToSelection [⟨"hello".toList, none, none, []⟩] 1 3
          (some "31") none []) 1 3 (some "31") none [] =
      applyFormattingToSelection [⟨"hello".toList, none, none, []⟩] 1 3
        (some "31") none [] :=
  claim_idempotent _ 1 3 (some "31") none [] (by omega) (by decide)

/-- Unfolding equation for `generateColoredText`. -/
theorem generateColoredText_eq (i : List Char) (segs : List TextSegment) :
    generateColoredText i segs =
      if (isBlank i || segs.length == 0) then []
      else "```ansi\n".toList ++ (segs.map encodeSegment).flatten ++
        "\n```".toList := rfl

/-- Counterexample for C4: toggling underline then bold stores `["4", "1"]`,
and the encoder emits the codes in that stored order — `4;1`, underline
before bold — not in the declared order `1;4`. -/
theorem claim_code_order_cex :
    toggleStyle "1" (toggleStyle "4" []) = ["4", "1"] ∧
    generateColoredText "hi".toList
        [⟨"hi".toList, none, none, ["4", "1"]⟩] =
      "```ansi\n\x1b[4;1mhi\x1b[0m\n```".toList ∧
    generateColoredText "hi".toList
        [⟨"hi".toList, none, none, ["4", "1"]⟩] ≠
      "```ansi\n\x1b[1;4mhi\x1b[0m\n```".toList := by
  decide

/-- Amended C4 theorem: for every styled segment the encoder emits the
numeric codes semicolon-joined, with the stored style codes first — in their
stored (toggle) order, not normalised to the declared bold-before-underline
order — then the foreground code, then the background code. -/
theorem claim_code_order (seg : TextSegment) :
    segmentCodes seg =
      seg.styles ++ optCode seg.foreground ++ optCode seg.background ∧
    (seg.text ≠ [] → segmentCodes seg ≠ [] →
      encodeSegment seg =
        "\x1b[".toList ++
          (String.intercalate ";" (segmentCodes seg)).toList ++
          "m".toList ++ seg.text ++ "\x1b[0m".toList) := by
  constructor
  · unfold segmentCodes
    by_cases h : seg.styles.length > 0
    · rw [if_pos h]
    · rw [if_neg h, List.length_eq_zero.mp (by omega : seg.styles.length = 0)]
  · intro h1 h2
    unfold encodeSegment
    rw [if_neg h1, if_neg h2]

/-- Witness for the amended C4 theorem. -/
theorem claim_code_order_witness :
    encodeSegment ⟨"hi".toList, some "31", none, ["1"]⟩ =
      "\x1b[".toList ++
        (String.intercalate ";"
          (segmentCodes ⟨"hi".toList, some "31", none, ["1"]⟩)).toList ++
        "m".toList ++ "hi".toList ++ "\x1b[0m".toList :=
  (claim_code_order ⟨"hi".toList, some "31", none, ["1"]⟩).2 (by decide)
    (by decide)

/-- Counterexample for C5: deleting all text from a one-segment unstyled
Document goes through the wholesale-replace branch of `handleTextChange` and
leaves a single segment whose text is empty. -/
theorem claim_no_empty_segments_cex :
    handleTextChange [⟨['a'], none, none, []⟩] [] =
      [⟨[], none, none, []⟩] ∧
    ¬(∀ seg ∈ handleTextChange [⟨['a'], none, none, []⟩] ([] : List Char),
        seg.text ≠ []) := by
  decide

/-- Amended C5 theorem: provided the Document had no empty segment, style
application never introduces one (zero-length split slices are dropped), and
text-change reconciliation and clear-all never introduce one as long as the
new full text is non-empty; only the empty-full-text wholesale replacement
retains a single empty unstyled segment. -/
theorem claim_no_empty_segments (segs : List TextSegment)
    (newText i : List Char) (s e : Nat) (fg bg : Option String)
    (sty : List String) (hne : ∀ seg ∈ segs, seg.text ≠ []) :
    (∀ seg' ∈ applyFormattingToSelection segs s e fg bg sty,
      seg'.text ≠ []) ∧
    (newText ≠ [] → ∀ seg' ∈ handleTextChange segs newText,
      seg'.text ≠ []) ∧
    (i ≠ [] → ∀ seg' ∈ clearAll i, seg'.text ≠ []) := by
  refine ⟨?_, handleTextChange_no_empty segs newText hne, ?_⟩
  · intro seg' h'
    unfold applyFormattingToSelection at h'
    by_cases hs : s = e
    · rw [if_pos hs] at h'
      exact hne seg' h'
    · rw [if_neg hs] at h'
      exact applyFmtGo_no_empty s e fg bg sty segs 0 hne seg' h'
  · intro hi seg' h'
    replace h' : seg' ∈ [(⟨i, none, none, []⟩ : TextSegment)] := h'
    rcases List.mem_singleton.mp h' with rfl
    exact hi

/-- Witness for the amended C5 theorem. -/
theorem claim_no_empty_segments_witness :
    (∀ seg' ∈ applyFormattingToSelection [⟨"ab".toList, none, none, []⟩] 0 1
        (some "31") none [], seg'.text ≠ []) ∧
    ("abc".toList ≠ [] → ∀ seg' ∈ handleTextChange
        [⟨"ab".toList, none, none, []⟩] "abc".toList, seg'.text ≠ []) ∧
    ("ab".toList ≠ [] → ∀ seg' ∈ clearAll "ab".toList, seg'.text ≠ []) :=
  claim_no_empty_segments _ "abc".toList "ab".toList 0 1 (some "31") none []
    (by decide)

/-- Counterexample for C6: two states with the identical segment list, both
satisfying the length invariant, encode differently — the blank check reads
the raw `inputText`, whose content can diverge from the segment texts (an
equal-length replacement is ignored by the `diff === 0` branch). -/
theorem claim_encoder_pure_cex :
    docLen [⟨"a".toList, some "31", none, []⟩] = (" ".toList).length ∧
    docLen [⟨"a".toList, some "31", none, []⟩] = ("a".toList).length ∧
    generateColoredText " ".toList [⟨"a".toList, some "31", none, []⟩] =
      [] ∧
    generateColoredText "a".toList [⟨"a".toList, some "31", none, []⟩] ≠
      [] := by
  decide

/-- Amended C6 theorem: the encoded output is a pure function of the segment
list together with the blankness of the raw input text: equally-blank inputs
with identical segment lists encode identically, and for non-blank input the
output is the fence around the segments' spans mapped in order — no
reordering, no deduplication. -/
theorem claim_encoder_pure (i1 i2 : List Char) (segs : List TextSegment) :
    (isBlank i1 = isBlank i2 →
      generateColoredText i1 segs = generateColoredText i2 segs) ∧
    (isBlank i1 = false → segs.length ≠ 0 →
      generateColoredText i1 segs =
        "```ansi\n".toList ++ (segs.map encodeSegment).flatten ++
          "\n```".toList) := by
  constructor
  · intro h
    rw [generateColoredText_eq, generateColoredText_eq, h]
  · intro h1 h2
    rw [generateColoredText_eq, if_neg (by simp [h1, h2])]

/-- Witness for the amended C6 theorem. -/
theorem claim_encoder_pure_witness :
    generateColoredText "a".toList [⟨"a".toList, some "31", none, []⟩] =
      generateColoredText "b".toList [⟨"a".toList, some "31", none, []⟩] ∧
    generateColoredText "a".toList [⟨"a".toList, some "31", none, []⟩] =
      "```ansi\n".toList ++
        (([⟨"a".toList, some "31", none, []⟩] : List TextSegment).map
          encodeSegment).flatten ++ "\n```".toList :=
  ⟨(claim_encoder_pure "a".toList "b".toList _).1 (by decide),
   (claim_encoder_pure "a".toList "b".toList _).2 (by decide) (by decide)⟩

/-- Claim C8 (growth policy): when reconciliation sees the text grow, the new
suffix is appended to the last segment's text preserving that segment's
style; except that an empty Document, or exactly one segment with no style
attributes at all, is replaced wholesale by a single unstyled segment holding
the new full text.  (`WfSeg` rules out the unreachable empty-string colour
codes, on which the code's JS truthiness guard would differ from "has no
attribute".) -/
theorem claim_growth_appends_to_last (segs : List TextSegment)
    (newText : List Char) (hwf : ∀ seg ∈ segs, WfSeg seg)
    (hgrow : docLen segs < newText.length) :
    (FreshDoc segs →
      handleTextChange segs newText = [⟨newText, none, none, []⟩]) ∧
    (¬FreshDoc segs →
      ∃ init last, segs = init ++ [last] ∧
        handleTextChange segs newText =
          init ++ [⟨last.text ++ newText.drop (docLen segs),
                    last.foreground, last.background, last.styles⟩]) := by
  constructor
  · intro hf
    rw [handleTextChange_eq, if_pos ((isFreshDoc_iff segs hwf).mpr hf)]
  · intro hf
    have hfb : ¬ isFreshDoc segs = true :=
      fun h => hf ((isFreshDoc_iff segs hwf).mp h)
    rcases List.eq_nil_or_concat segs with rfl | ⟨init, last, hc⟩
    · exact absurd (Or.inl rfl) hf
    · rw [List.concat_eq_append] at hc
      subst hc
      refine ⟨init, last, rfl, ?_⟩
      rw [handleTextChange_eq, if_neg hfb, if_pos hgrow, appendToLast_concat]

/-- Witness for C8 exercising the wholesale-replace branch. -/
theorem claim_growth_appends_to_last_witness :
    handleTextChange [⟨"hi".toList, none, none, []⟩] "hi there".toList =
      [⟨"hi there".toList, none, none, []⟩] :=
  (claim_growth_appends_to_last [⟨"hi".toList, none, none, []⟩]
      "hi there".toList (by decide) (by decide)).1
    (Or.inr ⟨⟨"hi".toList, none, none, []⟩, rfl, rfl, rfl, rfl⟩)

/-- Claim C9 (empty encoding): under the length invariant I1 — which holds in
every reachable state, see C1 — encoding returns the empty string, with no
fence emitted, exactly when the raw full input text is empty or
whitespace-only. -/
theorem claim_encode_empty_iff (inputText : List Char)
    (segs : List TextSegment) (hinv : docLen segs = inputText.length) :
    (generateColoredText inputText segs = [] ↔
      isBlank inputText = true) := by
  constructor
  · intro hemp
    by_contra hb
    have hbf : isBlank inputText = false := by
      cases h : isBlank inputText
      · rfl
      · exact absurd h hb
    have hs : segs.length ≠ 0 := by
      intro h0
      have hnil : segs = [] := List.length_eq_zero.mp h0
      subst hnil
      rw [docLen_nil] at hinv
      have hitnil : inputText = [] := List.length_eq_zero.mp hinv.symm
      subst hitnil
      simp [isBlank] at hbf
    rw [generateColoredText_eq, if_neg (by simp [hbf, hs])] at hemp
    have hlen := congrArg List.length hemp
    simp only [List.length_append, List.length_nil] at hlen
    have h8 : ("```ansi\n".toList).length = 8 := by decide
    omega
  · intro hb
    rw [generateColoredText_eq, if_pos (by simp [hb])]

/-- Witness for C9. -/
theorem claim_encode_empty_iff_witness :
    (generateColoredText "hello".toList
        [⟨"hello".toList, none, none, []⟩] = [] ↔
      isBlank "hello".toList = true) :=
  claim_encode_empty_iff _ _ (by decide)

/-- Unfolding equation for `generateColoredText2` with the `let` inlined. -/
theorem generateColoredText2_eq (i : List Char) (sty : List String)
    (fg bg : Option String) :
    generateColoredText2 i sty fg bg =
      if isBlank i then []
      else if (((if sty.length > 0 then sty else []) ++ optCodeObj fg ++
          optCodeObj bg).length == 0) then
        "```ansi\n".toList ++ i ++ "\n```".toList
      else
        "```ansi\n".toList ++ "\x1b[".toList ++
          (String.intercalate ";"
            ((if sty.length > 0 then sty else []) ++ optCodeObj fg ++
              optCodeObj bg)).toList ++
          "m".toList ++ i ++ "\x1b[0m".toList ++ "\n```".toList := rfl

/-- Claim C10 (refinement): the second App's whole-text encoder coincides
with the first App's segmented encoder applied to the single-segment Document
carrying the same text and the same global style choices, for palette colour
codes (which are never the empty string). -/
theorem claim_refinement (i : List Char) (sty : List String)
    (fg bg : Option String) (hfg : ∀ c, fg = some c → c ≠ "")
    (hbg : ∀ c, bg = some c → c ≠ "") :
    generateColoredText2 i sty fg bg =
      generateColoredText i [⟨i, fg, bg, sty⟩] := by
  rw [generateColoredText2_eq, generateColoredText_eq]
  by_cases hb : isBlank i = true
  · rw [if_pos hb, if_pos (by simp [hb])]
  · have hbf : isBlank i = false := by
      cases h : isBlank i
      · rfl
      · exact absurd h hb
    have hi : i ≠ [] := by
      intro h0
      subst h0
      simp [isBlank] at hbf
    have hfg' : optCodeObj fg = optCode fg := by
      cases fg with
      | none => rfl
      | some c => simp [optCode, optCodeObj, hfg c rfl]
    have hbg' : optCodeObj bg = optCode bg := by
      cases bg with
      | none => rfl
      | some c => simp [optCode, optCodeObj, hbg c rfl]
    have hcond : ¬((isBlank i ||
        (([(⟨i, fg, bg, sty⟩ : TextSegment)] : List TextSegment).length
          == 0)) = true) := by
      simp [hbf]
    rw [if_neg hb, if_neg hcond]
    simp only [List.map_cons, List.map_nil, List.flatten_cons,
      List.flatten_nil, List.append_nil]
    rw [hfg', hbg']
    have hsc : segmentCodes ⟨i, fg, bg, sty⟩ =
        (if sty.length > 0 then sty else []) ++ optCode fg ++ optCode bg :=
      rfl
    unfold encodeSegment
    rw [if_neg (show ¬(⟨i, fg, bg, sty⟩ : TextSegment).text = [] from hi)]
    by_cases hK : (if sty.length > 0 then sty else []) ++ optCode fg ++
        optCode bg = []
    · have hKlen : (((if sty.length > 0 then sty else []) ++ optCode fg ++
          optCode bg).length == 0) = true := by
        rw [hK]
        rfl
      rw [if_pos hKlen, if_pos (hsc.trans hK)]
    · have hKlen : ¬((((if sty.length > 0 then sty else []) ++ optCode fg ++
          optCode bg).length == 0) = true) := by
        simp only [beq_iff_eq]
        intro hlen
        exact hK (List.length_eq_zero.mp hlen)
      rw [if_neg hKlen, if_neg (fun h => hK (hsc.symm.trans h)), hsc]
      simp [List.append_assoc]

/-- Witness for C10. -/
theorem claim_refinement_witness :
    generateColoredText2 "hi".toList ["1"] (some "31") none =
      generateColoredText "hi".toList
        [⟨"hi".toList, some "31", none, ["1"]⟩] :=
  claim_refinement "hi".toList ["1"] (some "31") none
    (fun c hc => by cases hc; decide) (fun c hc => by cases hc)
